import Mathlib

/-
Verification of the diviner repository (grailbio/diviner): a shallow
embedding of the Value/Values data model (value.go) and of the localdb
database layer (localdb/localdb.go), with theorems settling the frozen
claims about them.

Modelling conventions:
- Go strings are modelled as List Char (GoStr).  Go compares strings
  bytewise over UTF-8; for valid UTF-8 this agrees with codepoint
  lexicographic order, which is what goStrLt implements.
- Go float64 is abstracted by F64: NaN, the two infinities, and finite
  values represented by rationals.  Go ordering and Go equality on
  float64 restrict exactly to F64.lt and F64.goEq on this abstraction
  (plus zero and minus zero, which Go compares as equal, collapse to
  fin 0).
- Go int64 values are modelled as Int: Int.Less only compares and never
  overflows, so the 64-bit bound is immaterial.
- uint64 sequence numbers are modelled as Nat; the 2^64 bound shows up
  as an explicit hypothesis where the decimal parser (ParseUint with
  bitSize 64) makes it observable.
- bolt nested buckets are modelled by DBState: a function map from study
  name to StudyData, whose runs bucket is an association list in key
  order (big-endian uint64 keys sort numerically, and the run writer and
  sequence allocator only ever append fresh larger keys).
- gob encoding of the run header round-trips all four exported fields
  here, so a stored header is kept as a RunRec.
- gzip (deflate/inflate) is external library code: it is passed as an
  abstract codec pair, and theorems that need it assume the library
  round-trip contract inflate (deflate p) = some p.
-/

/-- Go string, as a list of characters (bytewise UTF-8 order agrees with
codepoint order). -/
abbrev GoStr := List Char

/-- Go string comparison a < b (bytewise lexicographic), as in
value.go String.Less. -/
def goStrLt : GoStr → GoStr → Bool
  | [], [] => false
  | [], _ :: _ => true
  | _ :: _, [] => false
  | a :: as, b :: bs => if a = b then goStrLt as bs else decide (a < b)

/-- Go string order a <= b, i.e. not (b < a); the order sort.Strings
sorts by. -/
def strLeP (a b : GoStr) : Prop := goStrLt b a = false

instance strLeDecidable : DecidableRel strLeP :=
  fun a b => inferInstanceAs (Decidable (goStrLt b a = false))

/-- Abstraction of Go float64: NaN, infinities, finite values as
rationals.  Go ordering restricts exactly to this abstraction. -/
inductive F64 where
  | nan
  | negInf
  | fin (q : ℚ)
  | posInf
deriving DecidableEq

/-- Go < on float64 under the F64 abstraction: NaN compares false with
everything. -/
def F64.lt : F64 → F64 → Bool
  | .nan, _ => false
  | _, .nan => false
  | .negInf, .negInf => false
  | .negInf, _ => true
  | _, .negInf => false
  | .fin a, .fin b => decide (a < b)
  | .fin _, .posInf => true
  | .posInf, _ => false

/-- Go == on float64 under the F64 abstraction: NaN is equal to
nothing, not even itself. -/
def F64.goEq : F64 → F64 → Bool
  | .nan, _ => false
  | _, .nan => false
  | a, b => decide (a = b)

/-- Kind from value.go: integer, real, string. -/
inductive Kind where
  | integer
  | real
  | str
deriving DecidableEq

/-- Value from value.go: the tagged scalar.  Constructors int, fl, str
model the Go types Int (int64), Float (float64), String. -/
inductive Value where
  | int (i : ℤ)
  | fl (x : F64)
  | str (s : GoStr)
deriving DecidableEq

instance : Inhabited Value := ⟨Value.int 0⟩

/-- Value.Kind from value.go. -/
def Value.kind : Value → Kind
  | .int _ => .integer
  | .fl _ => .real
  | .str _ => .str

/-- Value.Less from value.go.  The Go code type-asserts its argument to
the same concrete type and panics across kinds; none models the panic. -/
def Value.less : Value → Value → Option Bool
  | .int a, .int b => some (decide (a < b))
  | .fl a, .fl b => some (F64.lt a b)
  | .str a, .str b => some (goStrLt a b)
  | _, _ => none

/-- Go == on Value (interface equality: different dynamic types are
unequal; same type compares the scalars, with float NaN never equal). -/
def Value.goEq : Value → Value → Bool
  | .int a, .int b => decide (a = b)
  | .fl a, .fl b => F64.goEq a b
  | .str a, .str b => decide (a = b)
  | _, _ => false

/-- Whether a Value is the float NaN. -/
def Value.isNan : Value → Bool
  | .fl .nan => true
  | _ => false

/-- The decimal digit character for d (d < 10; larger inputs clamp to
9, unreachable below). -/
def digitChar (d : Nat) : Char :=
  match d with
  | 0 => '0' | 1 => '1' | 2 => '2' | 3 => '3' | 4 => '4'
  | 5 => '5' | 6 => '6' | 7 => '7' | 8 => '8' | _ => '9'

/-- Decimal representation of a natural number, most significant digit
first; models fmt %d formatting. -/
def decRepr (n : Nat) : GoStr :=
  if n = 0 then ['0'] else (Nat.digits 10 n).reverse.map digitChar

/-- Decimal representation of an int64, as produced by fmt.Sprint on
the Go Int value type. -/
def intRepr (i : ℤ) : GoStr :=
  if i < 0 then '-' :: decRepr i.natAbs else decRepr i.toNat

/-- Textual form of an F64.  The finite case abstracts the shortest
float formatting of strconv; no theorem below depends on its digits. -/
def F64.repr : F64 → GoStr
  | .nan => ['N', 'a', 'N']
  | .negInf => ['-', 'I', 'n', 'f']
  | .posInf => ['+', 'I', 'n', 'f']
  | .fin q => intRepr q.num ++ '/' :: decRepr q.den

/-- Value.String from value.go. -/
def Value.string : Value → GoStr
  | .int i => intRepr i
  | .fl x => F64.repr x
  | .str s => s

/-- Values from value.go: a map from parameter name to Value, modelled
as an association list (iteration order is the list order; map
semantics need nodup keys). -/
abbrev Values := List (GoStr × Value)

/-- The key set of a Values map, in iteration order. -/
def valuesKeys (v : Values) : List GoStr := v.map (fun p => p.1)

/-- Map lookup on Values. -/
def lookupV : Values → GoStr → Option Value
  | [], _ => none
  | (k, x) :: rest, key => if k = key then some x else lookupV rest key

/-- strings.Join with a separator. -/
def joinSep (sep : GoStr) : List GoStr → GoStr
  | [] => []
  | [x] => x
  | x :: xs => x ++ sep ++ joinSep sep xs

/-- The map access v[key] followed by Value.String, as used when
building the canonical form (the key always comes from the map, so the
default is unreachable). -/
def valueStringAt (v : Values) (k : GoStr) : GoStr :=
  ((lookupV v k).map Value.string).getD []

/-- Values.String from value.go: collect the keys, sort.Strings them,
join key=value with commas.  Any correct comparison sort agrees with
insertionSort on a linear order, so insertionSort stands in for the
sort.Strings implementation. -/
def valuesString (v : Values) : GoStr :=
  let keys := List.insertionSort strLeP (valuesKeys v)
  joinSep [','] (keys.map (fun k => k ++ '=' :: valueStringAt v k))

/-- Whether a character is an ASCII decimal digit, the only characters
strconv.ParseUint accepts in base 10. -/
def isDigit10 (c : Char) : Bool := decide (48 ≤ c.toNat) && decide (c.toNat ≤ 57)

/-- Numeric value of a digit string, most significant digit first, as
accumulated by strconv.ParseUint. -/
def digitsVal (s : GoStr) : Nat :=
  s.foldl (fun a c => a * 10 + (c.toNat - 48)) 0

/-- strconv.ParseUint(s, 10, 64): a nonempty all-digit string whose
value fits in 64 bits; no sign, no underscores in base 10.  The Go code
detects overflow digit by digit, which accepts exactly the strings
whose value is below 2^64. -/
def parseUint64 (s : GoStr) : Option Nat :=
  if s = [] then none
  else if s.all isDigit10 then
    if digitsVal s < 2 ^ 64 then some (digitsVal s) else none
  else none

/-- strings.SplitN(id, sep, 2): split at the first separator; none
models the one-element result when the separator does not occur. -/
def splitFirst (sep : Char) : GoStr → Option (GoStr × GoStr)
  | [] => none
  | c :: cs =>
    if c = sep then some ([], cs)
    else match splitFirst sep cs with
      | none => none
      | some (a, b) => some (c :: a, b)

/-- RunState.  Modelled from the spec: the diviner package defining the
RunState bit mask is not under src; the spec gives Pending, Success,
Failure with aggregate Complete = Success union Failure, used as a bit
mask by DB.Runs. -/
abbrev RunState := Nat

/-- Pending run state (bit 0). -/
def Pending : RunState := 1

/-- Success run state (bit 1). -/
def Success : RunState := 2

/-- Failure run state (bit 2). -/
def Failure : RunState := 4

/-- Aggregate Complete mask: Success or Failure. -/
def CompleteMask : RunState := 6

/-- Metrics.  Modelled from the spec: the diviner package defining
Metrics is not under src; the spec describes a metrics map from metric
name to float64. -/
abbrev Metrics := List (GoStr × F64)

/-- The exported, gob-persisted header fields of a run (struct run in
localdb.go: Seq, Study, RunValues, RunState). -/
structure RunRec where
  seq : Nat
  study : GoStr
  values : Values
  state : RunState
deriving DecidableEq

/-- Errors surfaced by the localdb operations modelled here. -/
inductive DBErr where
  | noSuchRun
  | invalidRunId
  | noSuchStudy
deriving DecidableEq

instance exceptDecidableEq {e a : Type} [DecidableEq e] [DecidableEq a] :
    DecidableEq (Except e a) := fun x y =>
  match x, y with
  | .error u, .error v =>
    if h : u = v then .isTrue (h ▸ rfl) else .isFalse (fun hc => h (Except.error.inj hc))
  | .error _, .ok _ => .isFalse (fun hc => Except.noConfusion hc)
  | .ok _, .error _ => .isFalse (fun hc => Except.noConfusion hc)
  | .ok u, .ok v =>
    if h : u = v then .isTrue (h ▸ rfl) else .isFalse (fun hc => h (Except.ok.inj hc))

/-- Go byte slice contents. -/
abbrev GoBytes := List Nat

/-- The per-run bucket: the meta record, the metrics bucket and the
logs bucket.  Both sub-buckets only ever receive puts at their own
fresh NextSequence, so their key sets are exactly 1..n and a list in
key order carries the whole bucket (element i sits under key i+1, and
the bucket sequence counter equals the length). -/
structure RunData where
  meta : RunRec
  metrics : List Metrics
  logs : List GoBytes
deriving DecidableEq

/-- A study bucket: the runs bucket (association list in big-endian
key order, which for the appended, increasing uint64 keys is list
order) and its sequence counter.  The study meta record (the params)
is write-only in localdb.go and not observable, so it is not carried. -/
structure StudyData where
  nextSeq : Nat
  runs : List (Nat × RunData)
deriving DecidableEq

/-- DB from localdb.go: the studies root bucket plus the in-memory
liveset guarded by the mutex. -/
structure DBState where
  studies : GoStr → Option StudyData
  live : GoStr × Nat → Bool

/-- The freshly opened database: an empty studies bucket, an empty
liveset (localdb.go Open). -/
def dbOpen : DBState := { studies := fun _ => none, live := fun _ => false }

/-- Bucket lookup in the runs association list. -/
def lookupSeq : List (Nat × RunData) → Nat → Option RunData
  | [], _ => none
  | p :: rest, s => if p.1 = s then some p.2 else lookupSeq rest s

/-- Lookup of the bucket studies/study/runs/seq. -/
def lookupRun (d : DBState) (study : GoStr) (s : Nat) : Option RunData :=
  match d.studies study with
  | none => none
  | some sd => lookupSeq sd.runs s

/-- Rewrite the run bucket at studies/study/runs/s through f (a bolt
put into that bucket); identity when the path is missing. -/
def updateRun (d : DBState) (study : GoStr) (s : Nat) (f : RunData → RunData) : DBState :=
  match d.studies study with
  | none => d
  | some sd =>
    { d with studies := fun k =>
        if k = study then
          some { sd with runs := sd.runs.map (fun p => if p.1 = s then (p.1, f p.2) else p) }
        else d.studies k }

/-- run.marshal: put the header under the meta key of the run bucket;
ErrNoSuchRun when the bucket path is missing. -/
def marshalRun (d : DBState) (r : RunRec) : Except DBErr DBState :=
  match lookupRun d r.study r.seq with
  | none => .error .noSuchRun
  | some _ => .ok (updateRun d r.study r.seq (fun rd => { rd with meta := r }))

/-- DB.New: create the study bucket if needed (also writing the
write-only params record), allocate NextSequence in the runs bucket,
initialize the run (init defaults a zero RunState to Pending), create
its bucket, marshal the header, and register the run in the liveset
after the transaction commits. -/
def dbNew (d : DBState) (study : GoStr) (values : Values) : DBState × RunRec :=
  let sd := (d.studies study).getD { nextSeq := 0, runs := [] }
  let s := sd.nextSeq + 1
  let run : RunRec := { seq := s, study := study, values := values, state := Pending }
  let sd' : StudyData :=
    { nextSeq := s, runs := sd.runs ++ [(s, { meta := run, metrics := [], logs := [] })] }
  ({ studies := fun k => if k = study then some sd' else d.studies k,
     live := fun e => if e = (study, s) then true else d.live e }, run)

/-- The id of a run handle, run.ID: study-name/decimal-seq. -/
def runID (r : RunRec) : GoStr := r.study ++ '/' :: decRepr r.seq

/-- DB.Run: split the id at the first slash, require a nonempty study
part and a ParseUint-able sequence, then load and unmarshal the stored
header (ErrNoSuchRun when absent).  No retry, no mutation: the
database value is only read. -/
def dbRun (d : DBState) (id : GoStr) : Except DBErr RunRec :=
  match splitFirst '/' id with
  | none => .error .invalidRunId
  | some (study, rest) =>
    if study = [] then .error .invalidRunId
    else match parseUint64 rest with
      | none => .error .invalidRunId
      | some s =>
        match lookupRun d study s with
        | none => .error .noSuchRun
        | some rd => .ok rd.meta

/-- DB.Runs: ErrNoSuchStudy when the study bucket is missing; otherwise
iterate the runs bucket in key order, unmarshal each header, and keep
the runs whose state is inside the mask, except that a Pending run must
also be a liveset member (otherwise it is orphaned). -/
def dbRuns (d : DBState) (study : GoStr) (states : RunState) : Except DBErr (List RunRec) :=
  match d.studies study with
  | none => .error .noSuchStudy
  | some sd =>
    .ok (sd.runs.filterMap (fun p =>
      if p.2.meta.state &&& states = p.2.meta.state ∧
          (p.2.meta.state ≠ Pending ∨ d.live (p.2.meta.study, p.2.meta.seq) = true)
      then some p.2.meta else none))

/-- run.Complete: overwrite the in-memory state with the argument and
marshal; on a marshal error the in-memory state is rolled back, which
the error branch models by leaving the caller with the unchanged
handle.  The liveset is not touched. -/
def runComplete (d : DBState) (r : RunRec) (state : RunState) : Except DBErr (DBState × RunRec) :=
  let r' : RunRec := { r with state := state }
  match marshalRun d r' with
  | .ok d' => .ok (d', r')
  | .error e => .error e

/-- run.Update: append a metrics record under the next sequence key of
the metrics bucket (created on demand inside the existing run bucket). -/
def runUpdate (d : DBState) (r : RunRec) (m : Metrics) : Except DBErr DBState :=
  match lookupRun d r.study r.seq with
  | none => .error .noSuchRun
  | some _ => .ok (updateRun d r.study r.seq (fun rd => { rd with metrics := rd.metrics ++ [m] }))

/-- A finite sequence of run.Update calls. -/
def runUpdates (d : DBState) (r : RunRec) : List Metrics → Except DBErr DBState
  | [] => .ok d
  | m :: ms =>
    match runUpdate d r m with
    | .error e => .error e
    | .ok d' => runUpdates d' r ms

/-- run.Metrics: read the record under the current sequence counter of
the metrics bucket; a missing metrics bucket, or the key-0 read when no
record was ever put, yields the zero map with no error. -/
def runMetrics (d : DBState) (r : RunRec) : Except DBErr Metrics :=
  match lookupRun d r.study r.seq with
  | none => .error .noSuchRun
  | some rd => .ok (rd.metrics.getLast?.getD [])

/-- runWriter.Write: gzip-compress the block and put it under the next
sequence key of the logs bucket (created on demand inside the existing
run bucket). -/
def runWriterWrite (deflate : GoBytes → GoBytes) (d : DBState) (r : RunRec) (p : GoBytes) :
    Except DBErr DBState :=
  match lookupRun d r.study r.seq with
  | none => .error .noSuchRun
  | some _ => .ok (updateRun d r.study r.seq (fun rd => { rd with logs := rd.logs ++ [deflate p] }))

/-- The bufio.Writer buffer capacity used by run.init. -/
def bufCap : Nat := 4096

/-- run.Write: bufio.Writer.Write on top of runWriter.Write.  A write
that fits in the free buffer space is buffered; a larger write with an
empty buffer goes to the underlying writer whole; otherwise the buffer
is topped up and flushed, and the remainder is either written whole
(when it still exceeds the capacity) or buffered. -/
def runWrite (deflate : GoBytes → GoBytes) (d : DBState) (r : RunRec) (buf p : GoBytes) :
    Except DBErr (DBState × GoBytes) :=
  if p.length ≤ bufCap - buf.length then .ok (d, buf ++ p)
  else if buf.length = 0 then
    match runWriterWrite deflate d r p with
    | .error e => .error e
    | .ok d' => .ok (d', [])
  else
    let blk := buf ++ p.take (bufCap - buf.length)
    let rest := p.drop (bufCap - buf.length)
    match runWriterWrite deflate d r blk with
    | .error e => .error e
    | .ok d' =>
      if rest.length ≤ bufCap then .ok (d', rest)
      else
        match runWriterWrite deflate d' r rest with
        | .error e => .error e
        | .ok d'' => .ok (d'', [])

/-- run.Flush: bufio.Writer.Flush; a nonempty buffer is written as one
block, an empty buffer is a no-op. -/
def runFlush (deflate : GoBytes → GoBytes) (d : DBState) (r : RunRec) (buf : GoBytes) :
    Except DBErr (DBState × GoBytes) :=
  if buf = [] then .ok (d, [])
  else
    match runWriterWrite deflate d r buf with
    | .error e => .error e
    | .ok d' => .ok (d', [])

/-- A finite sequence of run.Write calls threading the buffer. -/
def runWrites (deflate : GoBytes → GoBytes) (d : DBState) (r : RunRec) (buf : GoBytes) :
    List GoBytes → Except DBErr (DBState × GoBytes)
  | [] => .ok (d, buf)
  | p :: ps =>
    match runWrite deflate d r buf p with
    | .error e => .error e
    | .ok (d', buf') => runWrites deflate d' r buf' ps

/-- Reading run.Log() to EOF: runReader.Read fetches the blocks under
keys 1, 2, ... of the logs bucket in order, inflating each; the first
missing key is EOF.  The writer assigns exactly the keys 1..n, so the
stored list read in order is the whole stream. -/
def readLog (inflate : GoBytes → Option GoBytes) : List GoBytes → Option GoBytes
  | [] => some []
  | b :: rest =>
    match inflate b, readLog inflate rest with
    | some q, some t => some (q ++ t)
    | _, _ => none

/-- The full log stream of a run as runReader yields it (a missing run
bucket or logs bucket reads as the empty stream). -/
def runLog (inflate : GoBytes → Option GoBytes) (d : DBState) (r : RunRec) : Option GoBytes :=
  match lookupRun d r.study r.seq with
  | none => some []
  | some rd => readLog inflate rd.logs

/-- The well-formed run id shape named by the spec and the claims: a
nonempty study name free of slashes, a slash, and a nonempty decimal
digit string whose value fits an unsigned 64-bit integer. -/
def validRunID (id : GoStr) : Prop :=
  ∃ s ds, id = s ++ '/' :: ds ∧ s ≠ [] ∧ '/' ∉ s ∧ ds ≠ [] ∧
    ds.all isDigit10 = true ∧ digitsVal ds < 2 ^ 64

/-- A run bucket holding just a header. -/
def rdOf (r : RunRec) : RunData := { meta := r, metrics := [], logs := [] }

/-- A database holding exactly one persisted run (as after a restart:
the liveset holds the run only when lv is true). -/
def dbWith (r : RunRec) (lv : Bool) : DBState :=
  { studies := fun k =>
      if k = r.study then some { nextSeq := r.seq, runs := [(r.seq, rdOf r)] } else none,
    live := fun e => if e = (r.study, r.seq) then lv else false }

/-- A concrete Pending run header for instantiating the theorems. -/
def rPend : RunRec := { seq := 1, study := ['s'], values := [], state := Pending }

/-- A concrete run header already in the terminal state Success. -/
def rSucc : RunRec := { seq := 1, study := ['s'], values := [], state := Success }

theorem goStrLt_irrefl : ∀ s : GoStr, goStrLt s s = false := by
  intro s
  induction s with
  | nil => rfl
  | cons c cs ih => simp [goStrLt, ih]

theorem goStrLt_trichotomy : ∀ a b : GoStr,
    a = b ∨ (goStrLt a b = true ∧ goStrLt b a = false) ∨
      (goStrLt a b = false ∧ goStrLt b a = true) := by
  intro a
  induction a with
  | nil =>
    intro b
    cases b with
    | nil => exact Or.inl rfl
    | cons d ds => exact Or.inr (Or.inl (by simp [goStrLt]))
  | cons c cs ih =>
    intro b
    cases b with
    | nil => exact Or.inr (Or.inr (by simp [goStrLt]))
    | cons d ds =>
      by_cases hcd : c = d
      · subst hcd
        rcases ih ds with h | ⟨h1, h2⟩ | ⟨h1, h2⟩
        · exact Or.inl (by rw [h])
        · exact Or.inr (Or.inl (by simp [goStrLt, h1, h2]))
        · exact Or.inr (Or.inr (by simp [goStrLt, h1, h2]))
      · rcases lt_trichotomy c d with h | h | h
        · refine Or.inr (Or.inl ⟨by simp [goStrLt, hcd, h], ?_⟩)
          simp [goStrLt, Ne.symm hcd, not_lt_of_lt h]
        · exact absurd h hcd
        · refine Or.inr (Or.inr ⟨by simp [goStrLt, hcd, not_lt_of_lt h], ?_⟩)
          simp [goStrLt, Ne.symm hcd, h]

theorem goStrLt_trans : ∀ a b c : GoStr,
    goStrLt a b = true → goStrLt b c = true → goStrLt a c = true := by
  intro a
  induction a with
  | nil =>
    intro b c hab hbc
    cases b with
    | nil => simp [goStrLt] at hab
    | cons d ds =>
      cases c with
      | nil => simp [goStrLt] at hbc
      | cons e es => simp [goStrLt]
  | cons x xs ih =>
    intro b c hab hbc
    cases b with
    | nil => simp [goStrLt] at hab
    | cons d ds =>
      cases c with
      | nil => simp [goStrLt] at hbc
      | cons e es =>
        by_cases hxd : x = d
        · rw [← hxd] at hbc
          rw [← hxd] at hab
          simp [goStrLt] at hab
          by_cases hxe : x = e
          · rw [← hxe] at hbc
            rw [← hxe]
            simp [goStrLt] at hbc ⊢
            exact ih ds es hab hbc
          · simp [goStrLt, hxe] at hbc ⊢
            exact hbc
        · simp [goStrLt, hxd] at hab
          by_cases hde : d = e
          · rw [← hde]
            simp [goStrLt, hxd]
            exact hab
          · simp [goStrLt, hde] at hbc
            have hxe : x < e := lt_trans hab hbc
            simp [goStrLt, ne_of_lt hxe, hxe]

instance strLeTotal : IsTotal GoStr strLeP := by
  constructor
  intro a b
  rcases goStrLt_trichotomy a b with h | ⟨_, h2⟩ | ⟨h1, _⟩
  · subst h
    exact Or.inl (goStrLt_irrefl a)
  · exact Or.inl h2
  · exact Or.inr h1

instance strLeTrans : IsTrans GoStr strLeP := by
  constructor
  intro a b c hab hbc
  unfold strLeP at *
  cases hval : goStrLt c a with
  | false => rfl
  | true =>
    exfalso
    rcases goStrLt_trichotomy a b with h1 | ⟨h1, _⟩ | ⟨_, h1⟩
    · subst h1
      rw [hval] at hbc
      exact Bool.noConfusion hbc
    · have h2 := goStrLt_trans c a b hval h1
      rw [h2] at hbc
      exact Bool.noConfusion hbc
    · rw [h1] at hab
      exact Bool.noConfusion hab

instance strLeAntisymm : IsAntisymm GoStr strLeP := by
  constructor
  intro a b hab hba
  unfold strLeP at *
  rcases goStrLt_trichotomy a b with h | ⟨h1, _⟩ | ⟨_, h2⟩
  · exact h
  · rw [h1] at hba
    simp at hba
  · rw [h2] at hab
    simp at hab

theorem lookupV_isSome_iff (v : Values) (k : GoStr) :
    (lookupV v k).isSome = true ↔ k ∈ valuesKeys v := by
  induction v with
  | nil => simp [lookupV, valuesKeys]
  | cons p rest ih =>
    by_cases h : p.1 = k
    · subst h
      simp [lookupV, valuesKeys]
    · have h' : k ≠ p.1 := fun he => h he.symm
      simp [lookupV, h, valuesKeys, ih, h']

/-- C8, amended part: the canonical string is a function of the map, not
of the representation: association lists with unique keys and the same
lookup function produce the same canonical string (the sort makes the
iteration order immaterial). -/
theorem valuesString_map_determined (v w : Values)
    (hv : (valuesKeys v).Nodup) (hw : (valuesKeys w).Nodup)
    (h : ∀ k, lookupV v k = lookupV w k) :
    valuesString v = valuesString w := by
  have hmem : ∀ k, k ∈ valuesKeys v ↔ k ∈ valuesKeys w := by
    intro k
    rw [← lookupV_isSome_iff, ← lookupV_isSome_iff, h k]
  have hperm : (valuesKeys v).Perm (valuesKeys w) :=
    List.perm_of_nodup_nodup_toFinset_eq hv hw (by
      ext a
      simp only [List.mem_toFinset]
      exact hmem a)
  have hsorted : List.insertionSort strLeP (valuesKeys v) =
      List.insertionSort strLeP (valuesKeys w) := by
    apply List.eq_of_perm_of_sorted (r := strLeP)
    · exact ((List.perm_insertionSort strLeP _).trans hperm).trans
        (List.perm_insertionSort strLeP _).symm
    · exact List.sorted_insertionSort strLeP _
    · exact List.sorted_insertionSort strLeP _
  have hf : valueStringAt v = valueStringAt w :=
    funext fun k => by rw [valueStringAt, valueStringAt, h k]
  unfold valuesString
  rw [hsorted, hf]

/-- C8 witness: two association lists listing the same two-point map in
different orders share the canonical string. -/
theorem valuesString_map_determined_witness :
    valuesString [(['a'], Value.int 1), (['b'], Value.int 2)] =
      valuesString [(['b'], Value.int 2), (['a'], Value.int 1)] :=
  valuesString_map_determined _ _ (by decide) (by decide) (by
    intro k
    by_cases h1 : ['a'] = k
    · rw [← h1]
      decide
    · by_cases h2 : ['b'] = k
      · rw [← h2]
        decide
      · simp [lookupV, h1, h2])

/-- C8 counterexample: the canonical string is not a point identity on
arbitrary Values maps: the maps a=Int(1) and a=String(1) differ but
share the canonical string a=1, refuting the only-if direction of the
claim. -/
theorem valuesString_not_point_identity_cex :
    valuesString [(['a'], Value.int 1)] = valuesString [(['a'], Value.str ['1'])] ∧
    lookupV [(['a'], Value.int 1)] ['a'] ≠ lookupV [(['a'], Value.str ['1'])] ['a'] := by
  constructor
  · simp [valuesString, valuesKeys, List.insertionSort, List.orderedInsert, valueStringAt,
      lookupV, Value.string, intRepr, decRepr, joinSep, digitChar]
  · decide

/-- C9, amended part: Less is irreflexive on every Value, and on two
same-kind values that are distinct under Go equality and free of NaN it
is trichotomous; NaN (possible only in the real kind) is the sole
exception. -/
theorem value_less_strict_order (a b : Value)
    (hk : a.kind = b.kind) (hne : a.goEq b = false)
    (ha : a.isNan = false) (hb : b.isNan = false) :
    ((a.less b = some true ∧ b.less a = some false) ∨
      (a.less b = some false ∧ b.less a = some true)) ∧
    ∀ c : Value, c.less c ≠ some true := by
  constructor
  · cases a with
    | int i =>
      cases b with
      | fl x => simp [Value.kind] at hk
      | str s => simp [Value.kind] at hk
      | int j =>
        have hij : i ≠ j := by
          intro hc
          subst hc
          simp [Value.goEq] at hne
        rcases lt_trichotomy i j with h | h | h
        · refine Or.inl ⟨by simp [Value.less, h], ?_⟩
          simp [Value.less]
          exact le_of_lt h
        · exact absurd h hij
        · refine Or.inr ⟨?_, by simp [Value.less, h]⟩
          simp [Value.less]
          exact le_of_lt h
    | str s =>
      cases b with
      | int j => simp [Value.kind] at hk
      | fl x => simp [Value.kind] at hk
      | str t =>
        have hst : s ≠ t := by
          intro hc
          subst hc
          simp [Value.goEq] at hne
        rcases goStrLt_trichotomy s t with h | ⟨h1, h2⟩ | ⟨h1, h2⟩
        · exact absurd h hst
        · exact Or.inl ⟨by simp [Value.less, h1], by simp [Value.less, h2]⟩
        · exact Or.inr ⟨by simp [Value.less, h1], by simp [Value.less, h2]⟩
    | fl x =>
      cases b with
      | int j => simp [Value.kind] at hk
      | str s => simp [Value.kind] at hk
      | fl y =>
        cases x with
        | nan => simp [Value.isNan] at ha
        | negInf =>
          cases y with
          | nan => simp [Value.isNan] at hb
          | negInf => simp [Value.goEq, F64.goEq] at hne
          | fin q => exact Or.inl ⟨rfl, rfl⟩
          | posInf => exact Or.inl ⟨rfl, rfl⟩
        | fin q =>
          cases y with
          | nan => simp [Value.isNan] at hb
          | negInf => exact Or.inr ⟨rfl, rfl⟩
          | fin p =>
            have hqp : q ≠ p := by
              intro hc
              subst hc
              simp [Value.goEq, F64.goEq] at hne
            rcases lt_trichotomy q p with h | h | h
            · refine Or.inl ⟨by simp [Value.less, F64.lt, h], ?_⟩
              simp [Value.less, F64.lt]
              exact le_of_lt h
            · exact absurd h hqp
            · refine Or.inr ⟨?_, by simp [Value.less, F64.lt, h]⟩
              simp [Value.less, F64.lt]
              exact le_of_lt h
          | posInf => exact Or.inl ⟨rfl, rfl⟩
        | posInf =>
          cases y with
          | nan => simp [Value.isNan] at hb
          | negInf => exact Or.inr ⟨rfl, rfl⟩
          | fin p => exact Or.inr ⟨rfl, rfl⟩
          | posInf => simp [Value.goEq, F64.goEq] at hne
  · intro c
    cases c with
    | int i => simp [Value.less]
    | str s => simp [Value.less, goStrLt_irrefl]
    | fl x =>
      cases x with
      | nan => simp [Value.less, F64.lt]
      | negInf => simp [Value.less, F64.lt]
      | fin q => simp [Value.less, F64.lt]
      | posInf => simp [Value.less, F64.lt]

/-- C9 witness: the trichotomy instantiated at the integer values 0 and
1, together with irreflexivity. -/
theorem value_less_strict_order_witness :
    (((Value.int 0).less (Value.int 1) = some true ∧
        (Value.int 1).less (Value.int 0) = some false) ∨
      ((Value.int 0).less (Value.int 1) = some false ∧
        (Value.int 1).less (Value.int 0) = some true)) ∧
    ∀ c : Value, c.less c ≠ some true :=
  value_less_strict_order (Value.int 0) (Value.int 1) rfl (by decide) rfl rfl

/-- C9 counterexample: NaN and 1 are distinct real-kind values (NaN is
equal to nothing under Go equality) yet neither is Less than the other,
so Less is not a strict total order on the real kind as claimed. -/
theorem value_less_nan_cex :
    (Value.fl F64.nan).kind = (Value.fl (F64.fin 1)).kind ∧
    (Value.fl F64.nan).goEq (Value.fl (F64.fin 1)) = false ∧
    (Value.fl F64.nan).less (Value.fl (F64.fin 1)) = some false ∧
    (Value.fl (F64.fin 1)).less (Value.fl F64.nan) = some false :=
  ⟨rfl, rfl, rfl, rfl⟩

theorem digitChar_toNat (d : Nat) (h : d < 10) : (digitChar d).toNat = 48 + d := by
  interval_cases d <;> rfl

theorem isDigit10_digitChar (d : Nat) (h : d < 10) : isDigit10 (digitChar d) = true := by
  interval_cases d <;> rfl

theorem foldl_digitsVal_map (L : List Nat) (acc : Nat) (h : ∀ d ∈ L, d < 10) :
    List.foldl (fun a c => a * 10 + (c.toNat - 48)) acc (L.map digitChar) =
      List.foldl (fun a d => a * 10 + d) acc L := by
  induction L generalizing acc with
  | nil => rfl
  | cons d t ih =>
    simp only [List.map_cons, List.foldl_cons]
    rw [digitChar_toNat d (h d (List.mem_cons_self d t)), Nat.add_sub_cancel_left]
    exact ih _ (fun x hx => h x (List.mem_cons_of_mem d hx))

theorem foldl_base10_reverse (l : List Nat) (acc : Nat) :
    List.foldl (fun a d => a * 10 + d) acc l.reverse =
      acc * 10 ^ l.length + Nat.ofDigits 10 l := by
  induction l generalizing acc with
  | nil => simp
  | cons d t ih =>
    simp only [List.reverse_cons, List.foldl_append, List.foldl_cons, List.foldl_nil, ih,
      Nat.ofDigits_cons, List.length_cons, pow_succ]
    ring

theorem digitsVal_decRepr (n : Nat) : digitsVal (decRepr n) = n := by
  unfold decRepr
  by_cases h : n = 0
  · subst h
    rfl
  · rw [if_neg h]
    unfold digitsVal
    rw [foldl_digitsVal_map _ _
      (fun d hd => Nat.digits_lt_base (by norm_num) (List.mem_reverse.mp hd))]
    rw [foldl_base10_reverse]
    simp [Nat.ofDigits_digits]

theorem decRepr_ne_nil (n : Nat) : decRepr n ≠ [] := by
  unfold decRepr
  by_cases h : n = 0
  · simp [h]
  · rw [if_neg h]
    simp [Nat.digits_ne_nil_iff_ne_zero.mpr h]

theorem decRepr_all_digits (n : Nat) : (decRepr n).all isDigit10 = true := by
  unfold decRepr
  by_cases h : n = 0
  · simp [h]
    decide
  · rw [if_neg h, List.all_eq_true]
    intro c hc
    rw [List.mem_map] at hc
    obtain ⟨d, hd, rfl⟩ := hc
    exact isDigit10_digitChar d (Nat.digits_lt_base (by norm_num) (List.mem_reverse.mp hd))

theorem parseUint64_decRepr (n : Nat) (h : n < 2 ^ 64) : parseUint64 (decRepr n) = some n := by
  unfold parseUint64
  rw [if_neg (decRepr_ne_nil n), if_pos (decRepr_all_digits n), digitsVal_decRepr, if_pos h]

theorem splitFirst_append (sep : Char) (s t : GoStr) (h : sep ∉ s) :
    splitFirst sep (s ++ sep :: t) = some (s, t) := by
  induction s with
  | nil => simp [splitFirst]
  | cons c cs ih =>
    have hc : c ≠ sep := fun hcs => h (hcs ▸ List.mem_cons_self c cs)
    simp only [List.cons_append, splitFirst, if_neg hc, List.append_eq]
    rw [ih (fun hm => h (List.mem_cons_of_mem c hm))]

theorem splitFirst_eq_some (sep : Char) (l a b : GoStr) (h : splitFirst sep l = some (a, b)) :
    l = a ++ sep :: b ∧ sep ∉ a := by
  induction l generalizing a b with
  | nil => simp [splitFirst] at h
  | cons c cs ih =>
    simp only [splitFirst] at h
    by_cases hc : c = sep
    · rw [if_pos hc] at h
      simp only [Option.some.injEq, Prod.mk.injEq] at h
      obtain ⟨rfl, rfl⟩ := h
      exact ⟨by rw [hc, List.nil_append], by simp⟩
    · rw [if_neg hc] at h
      cases hsp : splitFirst sep cs with
      | none =>
        rw [hsp] at h
        simp at h
      | some p =>
        obtain ⟨a', b'⟩ := p
        rw [hsp] at h
        simp only [Option.some.injEq, Prod.mk.injEq] at h
        obtain ⟨rfl, rfl⟩ := h
        obtain ⟨hl, hm⟩ := ih a' b' hsp
        constructor
        · rw [hl, List.cons_append]
        · intro hmem
          rcases List.mem_cons.mp hmem with h1 | h1
          · exact hc h1.symm
          · exact hm h1

theorem splitFirst_eq_none (sep : Char) (l : GoStr) : splitFirst sep l = none ↔ sep ∉ l := by
  induction l with
  | nil => simp [splitFirst]
  | cons c cs ih =>
    simp only [splitFirst]
    by_cases hc : c = sep
    · rw [if_pos hc]
      constructor
      · intro h
        exact Option.noConfusion h
      · intro h
        exact absurd (by rw [hc]; exact List.mem_cons_self sep cs) h
    · rw [if_neg hc]
      cases hsp : splitFirst sep cs with
      | none =>
        have hnot : sep ∉ cs := ih.mp hsp
        simp [List.mem_cons, Ne.symm hc, hnot]
      | some p =>
        obtain ⟨a, b⟩ := p
        have hmem : sep ∈ cs := by
          by_contra hn
          have h2 := ih.mpr hn
          rw [hsp] at h2
          exact Option.noConfusion h2
        simp [List.mem_cons, hmem]

theorem lookupSeq_map_update (l : List (Nat × RunData)) (k : Nat) (f : RunData → RunData)
    (v : RunData) (h : lookupSeq l k = some v) :
    lookupSeq (l.map (fun p => if p.1 = k then (p.1, f p.2) else p)) k = some (f v) := by
  induction l with
  | nil => simp [lookupSeq] at h
  | cons p t ih =>
    simp only [lookupSeq] at h
    by_cases hpk : p.1 = k
    · rw [if_pos hpk] at h
      rw [Option.some_inj] at h
      simp only [List.map_cons, if_pos hpk, lookupSeq]
      rw [h]
    · rw [if_neg hpk] at h
      simp only [List.map_cons, if_neg hpk, lookupSeq]
      exact ih h

theorem lookupRun_updateRun (d : DBState) (st : GoStr) (s : Nat) (f : RunData → RunData)
    (rd : RunData) (h : lookupRun d st s = some rd) :
    lookupRun (updateRun d st s f) st s = some (f rd) := by
  unfold lookupRun updateRun
  cases hsd : d.studies st with
  | none =>
    rw [lookupRun, hsd] at h
    exact Option.noConfusion h
  | some sd =>
    rw [lookupRun, hsd] at h
    simp [hsd, lookupSeq_map_update sd.runs s f rd h]

theorem live_updateRun (d : DBState) (st : GoStr) (s : Nat) (f : RunData → RunData) :
    (updateRun d st s f).live = d.live := by
  unfold updateRun
  cases hsd : d.studies st <;> rfl

theorem mem_dbRuns_pending (d : DBState) (study : GoStr) (states : RunState) (rs : List RunRec)
    (h : dbRuns d study states = .ok rs) (r : RunRec) (hr : r ∈ rs) (hp : r.state = Pending) :
    d.live (r.study, r.seq) = true := by
  unfold dbRuns at h
  cases hsd : d.studies study with
  | none =>
    rw [hsd] at h
    exact Except.noConfusion h
  | some sd =>
    rw [hsd] at h
    simp only [Except.ok.injEq] at h
    subst h
    rw [List.mem_filterMap] at hr
    obtain ⟨p, hmem, hsome⟩ := hr
    by_cases hcond : p.2.meta.state &&& states = p.2.meta.state ∧
        (p.2.meta.state ≠ Pending ∨ d.live (p.2.meta.study, p.2.meta.seq) = true)
    · rw [if_pos hcond] at hsome
      rw [Option.some_inj] at hsome
      subst hsome
      rcases hcond.2 with hne | hl
      · exact absurd hp hne
      · exact hl
    · rw [if_neg hcond] at hsome
      exact Option.noConfusion hsome

theorem runComplete_ok (d : DBState) (r : RunRec) (st : RunState) (rd : RunData)
    (hrd : lookupRun d r.study r.seq = some rd) :
    runComplete d r st =
      .ok (updateRun d r.study r.seq (fun rd0 => { rd0 with meta := { r with state := st } }),
        { r with state := st }) := by
  unfold runComplete marshalRun
  dsimp only
  rw [hrd]

theorem runComplete_ok_cases (d : DBState) (r : RunRec) (st : RunState) (d' : DBState)
    (r' : RunRec) (h : runComplete d r st = .ok (d', r')) :
    ∃ rd, lookupRun d r.study r.seq = some rd ∧
      d' = updateRun d r.study r.seq (fun rd0 => { rd0 with meta := { r with state := st } }) ∧
      r' = { r with state := st } := by
  unfold runComplete marshalRun at h
  dsimp only at h
  cases hl : lookupRun d r.study r.seq with
  | none =>
    rw [hl] at h
    simp at h
  | some rd =>
    rw [hl] at h
    simp only [Except.ok.injEq, Prod.mk.injEq] at h
    exact ⟨rd, rfl, h.1.symm, h.2.symm⟩

/-- C1, amended part: run.Complete does not guard terminal states:
whenever the run bucket exists, Complete(state) succeeds and overwrites
both the handle state and the stored state with the argument, whatever
the previous state was (so a repeated same-state call is trivially a
no-op, and a different-state call replaces the terminal state instead
of being rejected). -/
theorem complete_overwrites_state (d : DBState) (r : RunRec) (st : RunState) (rd : RunData)
    (hrd : lookupRun d r.study r.seq = some rd) :
    ∃ d', runComplete d r st = .ok (d', { r with state := st }) ∧
      lookupRun d' r.study r.seq = some { rd with meta := { r with state := st } } :=
  ⟨_, runComplete_ok d r st rd hrd, lookupRun_updateRun d r.study r.seq _ rd hrd⟩

/-- C1 witness: the overwrite theorem instantiated on a one-run
database. -/
theorem complete_overwrites_state_witness :
    ∃ d', runComplete (dbWith rPend false) rPend Failure =
        .ok (d', { rPend with state := Failure }) ∧
      lookupRun d' rPend.study rPend.seq =
        some { rdOf rPend with meta := { rPend with state := Failure } } :=
  complete_overwrites_state (dbWith rPend false) rPend Failure (rdOf rPend) rfl

/-- C1 counterexample: a run already in terminal state Success accepts
Complete(Failure): the call succeeds and both the handle state and the
stored state become Failure, so the different-state call is neither
rejected nor does it leave the stored state unchanged. -/
theorem complete_not_rejected_cex :
    rSucc.state = Success ∧
    ((runComplete (dbWith rSucc false) rSucc Failure).toOption.map (fun q => q.2.state)) =
      some Failure ∧
    ((runComplete (dbWith rSucc false) rSucc Failure).toOption.bind
      (fun q => (lookupRun q.1 ['s'] 1).map (fun rd => rd.meta.state))) = some Failure ∧
    Failure ≠ Success := by
  decide

/-- C2, amended part: an orphaned Pending run (persisted but not in the
liveset) is excluded from every DB.Runs query, whatever the state mask:
any Pending run that a query returns is a liveset member. -/
theorem runs_excludes_orphans (d : DBState) (study : GoStr) (states : RunState)
    (rs : List RunRec) (h : dbRuns d study states = .ok rs) (r : RunRec)
    (hp : r.state = Pending) (horph : d.live (r.study, r.seq) = false) : r ∉ rs := by
  intro hr
  have hlive := mem_dbRuns_pending d study states rs h r hr hp
  rw [horph] at hlive
  exact Bool.noConfusion hlive

/-- C2 witness: the exclusion theorem instantiated on a database with a
single orphaned Pending run and the mask Pending or Complete. -/
theorem runs_excludes_orphans_witness : rPend ∉ ([] : List RunRec) :=
  runs_excludes_orphans (dbWith rPend false) ['s'] (Pending ||| CompleteMask) [] (by decide)
    rPend rfl rfl

/-- C2 counterexample: with one orphaned Pending run persisted and the
liveset empty, Runs with mask Pending is empty as the claim states, but
Runs with mask Pending or Complete is empty as well: the orphan is not
included, refuting the inclusion half of the claim. -/
theorem runs_pending_complete_excludes_orphan_cex :
    lookupRun (dbWith rPend false) ['s'] 1 = some (rdOf rPend) ∧
    rPend.state = Pending ∧
    (dbWith rPend false).live (['s'], 1) = false ∧
    dbRuns (dbWith rPend false) ['s'] Pending = .ok [] ∧
    dbRuns (dbWith rPend false) ['s'] (Pending ||| CompleteMask) = .ok [] := by
  decide

/-- C3, amended part: DB.New registers the new run in the liveset, but
run.Complete never touches the liveset: a successful Complete leaves
the liveset exactly as it was, so the completed run is still a liveset
member. -/
theorem liveset_new_complete (d : DBState) (study : GoStr) (values : Values) :
    ((dbNew d study values).1).live (study, (dbNew d study values).2.seq) = true ∧
    ∀ d0 r st d' r', runComplete d0 r st = .ok (d', r') → d'.live = d0.live := by
  constructor
  · simp [dbNew]
  · intro d0 r st d' r' h
    obtain ⟨rd, _, hd, _⟩ := runComplete_ok_cases d0 r st d' r' h
    rw [hd]
    exact live_updateRun d0 _ _ _

/-- C3 witness: New on the empty database registers the run, and a
concrete successful Complete leaves the liveset function unchanged. -/
theorem liveset_new_complete_witness :
    ((dbNew dbOpen ['s'] []).1).live (['s'], (dbNew dbOpen ['s'] []).2.seq) = true ∧
    (updateRun (dbWith rPend false) rPend.study rPend.seq
        (fun rd0 => { rd0 with meta := { rPend with state := Success } })).live =
      (dbWith rPend false).live :=
  ⟨(liveset_new_complete dbOpen ['s'] []).1,
    (liveset_new_complete dbOpen ['s'] []).2 (dbWith rPend false) rPend Success _ _ rfl⟩

/-- C3 counterexample: create a run with New and complete it with
Success; the liveset still contains the entry afterwards, refuting the
claim that Complete removes it. -/
theorem complete_keeps_liveset_cex :
    ((runComplete (dbNew dbOpen ['s'] []).1 (dbNew dbOpen ['s'] []).2 Success).toOption.map
      (fun q => q.1.live (['s'], 1))) = some true := by
  decide

theorem runUpdate_ok (d : DBState) (r : RunRec) (m : Metrics) (rd : RunData)
    (hrd : lookupRun d r.study r.seq = some rd) :
    runUpdate d r m = .ok (updateRun d r.study r.seq
      (fun rd0 => { rd0 with metrics := rd0.metrics ++ [m] })) := by
  unfold runUpdate
  rw [hrd]

theorem runUpdates_ok (d : DBState) (r : RunRec) (ms : List Metrics) (rd : RunData)
    (hrd : lookupRun d r.study r.seq = some rd) :
    ∃ d', runUpdates d r ms = .ok d' ∧
      lookupRun d' r.study r.seq = some { rd with metrics := rd.metrics ++ ms } := by
  induction ms generalizing d rd with
  | nil =>
    refine ⟨d, rfl, ?_⟩
    rw [hrd]
    simp
  | cons m t ih =>
    have h1 := runUpdate_ok d r m rd hrd
    have h2 : lookupRun (updateRun d r.study r.seq
        (fun rd0 => { rd0 with metrics := rd0.metrics ++ [m] })) r.study r.seq =
        some { rd with metrics := rd.metrics ++ [m] } :=
      lookupRun_updateRun d r.study r.seq _ rd hrd
    obtain ⟨d', hd', hl⟩ := ih _ _ h2
    refine ⟨d', ?_, ?_⟩
    · unfold runUpdates
      rw [h1]
      exact hd'
    · rw [List.append_cons]
      exact hl

/-- C4: run.Metrics returns exactly the record passed to the most
recent run.Update: after any finite sequence of Update calls on a run
whose metrics bucket starts empty, Metrics returns the last appended
map, and with no Update at all it returns the empty map with no
error. -/
theorem metrics_last_update_wins (d : DBState) (r : RunRec) (ms : List Metrics) (rd : RunData)
    (hrd : lookupRun d r.study r.seq = some rd) (h0 : rd.metrics = []) :
    ∃ d', runUpdates d r ms = .ok d' ∧ runMetrics d' r = .ok (ms.getLast?.getD []) := by
  obtain ⟨d', hd', hl⟩ := runUpdates_ok d r ms rd hrd
  refine ⟨d', hd', ?_⟩
  unfold runMetrics
  rw [hl]
  simp [h0]

/-- C4 witness: two updates on a fresh run; Metrics returns the second
map, not a merge. -/
theorem metrics_last_update_wins_witness :
    ∃ d', runUpdates (dbWith rPend false) rPend
        [[(['m'], F64.fin 1)], [(['m'], F64.fin 2)]] = .ok d' ∧
      runMetrics d' rPend = .ok [(['m'], F64.fin 2)] :=
  metrics_last_update_wins (dbWith rPend false) rPend
    [[(['m'], F64.fin 1)], [(['m'], F64.fin 2)]] (rdOf rPend) rfl rfl

theorem dbRun_runID_ok (d : DBState) (s : GoStr) (n : Nat) (rd : RunData)
    (hrd : lookupRun d s n = some rd) (hstudy : rd.meta.study = s) (hseq : rd.meta.seq = n)
    (hne : s ≠ []) (hsl : '/' ∉ s) (hbound : n < 2 ^ 64) :
    dbRun d (runID rd.meta) = .ok rd.meta := by
  have h1 : splitFirst '/' (runID rd.meta) = some (s, decRepr n) := by
    rw [runID, hstudy, hseq]
    exact splitFirst_append '/' s (decRepr n) hsl
  simp only [dbRun, h1, if_neg hne, parseUint64_decRepr n hbound, hrd]

/-- C6: run id round trip: a persisted run whose study name is nonempty
and slash-free has the id study-name/decimal-seq, and DB.Run applied to
that id returns exactly the stored header: same study, sequence,
values and state. -/
theorem runID_roundtrip (d : DBState) (s : GoStr) (n : Nat) (rd : RunData)
    (hrd : lookupRun d s n = some rd) (hstudy : rd.meta.study = s) (hseq : rd.meta.seq = n)
    (hne : s ≠ []) (hsl : '/' ∉ s) (hbound : n < 2 ^ 64) :
    runID rd.meta = s ++ '/' :: decRepr n ∧ dbRun d (runID rd.meta) = .ok rd.meta :=
  ⟨by rw [runID, hstudy, hseq], dbRun_runID_ok d s n rd hrd hstudy hseq hne hsl hbound⟩

/-- C6 witness: the round trip on a concrete one-run database with the
id s/1. -/
theorem runID_roundtrip_witness :
    runID rPend = ['s'] ++ '/' :: decRepr 1 ∧
    dbRun (dbWith rPend false) (runID rPend) = .ok rPend :=
  runID_roundtrip (dbWith rPend false) ['s'] 1 (rdOf rPend) rfl rfl rfl (by decide)
    (by decide) (by norm_num)

/-- C7: DB.Run returns ErrInvalidRunId exactly on the ids that are not
of the valid form (nonempty slash-free study name, a slash, a decimal
unsigned 64-bit integer); the failure is pure input validation and the
database state is never consulted or mutated for it. -/
theorem dbRun_invalid_iff (d : DBState) (id : GoStr) :
    dbRun d id = .error DBErr.invalidRunId ↔ ¬ validRunID id := by
  constructor
  · intro h hval
    obtain ⟨s, ds, hid, hs, hsl, hds, hdig, hbound⟩ := hval
    have h1 : splitFirst '/' id = some (s, ds) := by
      rw [hid]
      exact splitFirst_append '/' s ds hsl
    have h2 : parseUint64 ds = some (digitsVal ds) := by
      unfold parseUint64
      rw [if_neg hds, if_pos hdig, if_pos hbound]
    simp only [dbRun, h1, if_neg hs, h2] at h
    cases hl : lookupRun d s (digitsVal ds) with
    | none =>
      rw [hl] at h
      simp at h
    | some rd =>
      rw [hl] at h
      simp at h
  · intro hnv
    cases hsp : splitFirst '/' id with
    | none => simp only [dbRun, hsp]
    | some p =>
      obtain ⟨s, ds⟩ := p
      obtain ⟨hid, hsl⟩ := splitFirst_eq_some '/' id s ds hsp
      by_cases hs : s = []
      · simp only [dbRun, hsp, if_pos hs]
      · cases hpu : parseUint64 ds with
        | none => simp only [dbRun, hsp, if_neg hs, hpu]
        | some n =>
          exfalso
          apply hnv
          unfold parseUint64 at hpu
          by_cases hempty : ds = []
          · rw [if_pos hempty] at hpu
            exact Option.noConfusion hpu
          · rw [if_neg hempty] at hpu
            by_cases hdig : ds.all isDigit10 = true
            · rw [if_pos hdig] at hpu
              by_cases hb : digitsVal ds < 2 ^ 64
              · exact ⟨s, ds, hid, hs, hsl, hempty, hdig, hb⟩
              · rw [if_neg hb] at hpu
                exact Option.noConfusion hpu
            · rw [if_neg hdig] at hpu
              exact Option.noConfusion hpu

/-- C7 witness: an id without a slash is invalid and DB.Run rejects it
with ErrInvalidRunId. -/
theorem dbRun_invalid_iff_witness :
    dbRun (dbWith rPend false) ['s'] = .error DBErr.invalidRunId :=
  (dbRun_invalid_iff (dbWith rPend false) ['s']).mpr (by
    intro hval
    obtain ⟨s, ds, hid, -, -, -, -, -⟩ := hval
    have hmem : '/' ∈ (['s'] : GoStr) := by
      rw [hid]
      simp
    simp at hmem)

/-- C10: DB.Run performs no orphan filtering: a persisted Pending run
outside the liveset is returned, still in state Pending, by DB.Run on
its id, even though Runs(study, Pending) excludes it. -/
theorem dbRun_ignores_liveset (d : DBState) (s : GoStr) (n : Nat) (rd : RunData)
    (hrd : lookupRun d s n = some rd) (hstudy : rd.meta.study = s) (hseq : rd.meta.seq = n)
    (hpend : rd.meta.state = Pending) (hne : s ≠ []) (hsl : '/' ∉ s) (hbound : n < 2 ^ 64)
    (horph : d.live (s, n) = false) :
    (dbRun d (runID rd.meta) = .ok rd.meta ∧ rd.meta.state = Pending) ∧
    ∀ rs, dbRuns d s Pending = .ok rs → rd.meta ∉ rs := by
  refine ⟨⟨dbRun_runID_ok d s n rd hrd hstudy hseq hne hsl hbound, hpend⟩, ?_⟩
  intro rs h hmem
  have hlive := mem_dbRuns_pending d s Pending rs h rd.meta hmem hpend
  rw [hstudy, hseq, horph] at hlive
  exact Bool.noConfusion hlive

/-- C10 witness: the orphaned run s/1 is hidden from the Pending query
yet loaded by id. -/
theorem dbRun_ignores_liveset_witness :
    (dbRun (dbWith rPend false) (runID rPend) = .ok rPend ∧ rPend.state = Pending) ∧
    rPend ∉ ([] : List RunRec) :=
  ⟨(dbRun_ignores_liveset (dbWith rPend false) ['s'] 1 (rdOf rPend) rfl rfl rfl rfl (by decide)
      (by decide) (by norm_num) rfl).1,
    (dbRun_ignores_liveset (dbWith rPend false) ['s'] 1 (rdOf rPend) rfl rfl rfl rfl (by decide)
      (by decide) (by norm_num) rfl).2 [] (by decide)⟩

theorem runWriterWrite_ok (deflate : GoBytes → GoBytes) (d : DBState) (r : RunRec) (p : GoBytes)
    (rd : RunData) (hrd : lookupRun d r.study r.seq = some rd) :
    runWriterWrite deflate d r p = .ok (updateRun d r.study r.seq
      (fun rd0 => { rd0 with logs := rd0.logs ++ [deflate p] })) := by
  unfold runWriterWrite
  rw [hrd]

theorem runWrite_ok (deflate : GoBytes → GoBytes) (d : DBState) (r : RunRec) (buf p : GoBytes)
    (rd : RunData) (hrd : lookupRun d r.study r.seq = some rd) :
    ∃ (d' : DBState) (buf' : GoBytes) (nb : List GoBytes),
      runWrite deflate d r buf p = .ok (d', buf') ∧
      lookupRun d' r.study r.seq = some { rd with logs := rd.logs ++ nb.map deflate } ∧
      nb.flatten ++ buf' = buf ++ p := by
  unfold runWrite
  by_cases h1 : p.length ≤ bufCap - buf.length
  · simp only [if_pos h1]
    refine ⟨d, buf ++ p, [], rfl, ?_, by simp⟩
    rw [hrd]
    simp
  · by_cases h2 : buf.length = 0
    · have hbuf : buf = [] := List.length_eq_zero.mp h2
      simp only [if_neg h1, if_pos h2, runWriterWrite_ok deflate d r p rd hrd]
      exact ⟨_, [], [p], rfl, lookupRun_updateRun d r.study r.seq _ rd hrd, by simp [hbuf]⟩
    · by_cases h3 : (p.drop (bufCap - buf.length)).length ≤ bufCap
      · simp only [if_neg h1, if_neg h2,
          runWriterWrite_ok deflate d r (buf ++ p.take (bufCap - buf.length)) rd hrd,
          if_pos h3]
        refine ⟨_, p.drop (bufCap - buf.length), [buf ++ p.take (bufCap - buf.length)], rfl,
          lookupRun_updateRun d r.study r.seq _ rd hrd, ?_⟩
        simp [List.append_assoc, List.take_append_drop]
      · simp only [if_neg h1, if_neg h2,
          runWriterWrite_ok deflate d r (buf ++ p.take (bufCap - buf.length)) rd hrd,
          if_neg h3,
          runWriterWrite_ok deflate _ r (p.drop (bufCap - buf.length)) _
            (lookupRun_updateRun d r.study r.seq _ rd hrd)]
        refine ⟨_, [], [buf ++ p.take (bufCap - buf.length), p.drop (bufCap - buf.length)],
          rfl, ?_, ?_⟩
        · have h4 := lookupRun_updateRun
            (updateRun d r.study r.seq (fun rd0 =>
              { rd0 with logs := rd0.logs ++ [deflate (buf ++ p.take (bufCap - buf.length))] }))
            r.study r.seq
            (fun rd0 => { rd0 with logs := rd0.logs ++ [deflate (p.drop (bufCap - buf.length))] })
            { rd with logs := rd.logs ++ [deflate (buf ++ p.take (bufCap - buf.length))] }
            (lookupRun_updateRun d r.study r.seq _ rd hrd)
          rw [h4]
          simp [List.append_assoc]
        · simp [List.append_assoc, List.take_append_drop]

theorem runWrites_ok (deflate : GoBytes → GoBytes) (d : DBState) (r : RunRec) (buf : GoBytes)
    (ws : List GoBytes) (rd : RunData) (hrd : lookupRun d r.study r.seq = some rd) :
    ∃ (d' : DBState) (buf' : GoBytes) (bs : List GoBytes),
      runWrites deflate d r buf ws = .ok (d', buf') ∧
      lookupRun d' r.study r.seq = some { rd with logs := rd.logs ++ bs.map deflate } ∧
      bs.flatten ++ buf' = buf ++ ws.flatten := by
  induction ws generalizing d buf rd with
  | nil =>
    refine ⟨d, buf, [], rfl, ?_, by simp⟩
    rw [hrd]
    simp
  | cons p t ih =>
    obtain ⟨d1, b1, nb, hw, hl1, hc1⟩ := runWrite_ok deflate d r buf p rd hrd
    obtain ⟨d', b', bs, hws, hl2, hc2⟩ := ih d1 b1 _ hl1
    refine ⟨d', b', nb ++ bs, ?_, ?_, ?_⟩
    · unfold runWrites
      rw [hw]
      exact hws
    · rw [hl2]
      simp [List.append_assoc]
    · calc (nb ++ bs).flatten ++ b'
          = nb.flatten ++ (bs.flatten ++ b') := by simp [List.append_assoc]
        _ = nb.flatten ++ (b1 ++ t.flatten) := by rw [hc2]
        _ = (nb.flatten ++ b1) ++ t.flatten := by rw [List.append_assoc]
        _ = (buf ++ p) ++ t.flatten := by rw [hc1]
        _ = buf ++ (p :: t).flatten := by simp [List.append_assoc]

theorem runFlush_ok (deflate : GoBytes → GoBytes) (d : DBState) (r : RunRec) (buf : GoBytes)
    (rd : RunData) (hrd : lookupRun d r.study r.seq = some rd) :
    ∃ (d' : DBState) (bs : List GoBytes), runFlush deflate d r buf = .ok (d', []) ∧
      lookupRun d' r.study r.seq = some { rd with logs := rd.logs ++ bs.map deflate } ∧
      bs.flatten = buf := by
  unfold runFlush
  by_cases h : buf = []
  · simp only [if_pos h]
    refine ⟨d, [], rfl, ?_, by simp [h]⟩
    rw [hrd]
    simp
  · simp only [if_neg h, runWriterWrite_ok deflate d r buf rd hrd]
    exact ⟨_, [buf], rfl, lookupRun_updateRun d r.study r.seq _ rd hrd, by simp⟩

theorem readLog_deflate (deflate : GoBytes → GoBytes) (inflate : GoBytes → Option GoBytes)
    (hrt : ∀ q, inflate (deflate q) = some q) (bs : List GoBytes) :
    readLog inflate (bs.map deflate) = some bs.flatten := by
  induction bs with
  | nil => rfl
  | cons b t ih => simp [readLog, hrt, ih]

/-- C5: log round trip: writing any finite sequence of byte blocks
through run.Write (bufio-buffered; each flushed block gzip-compressed
and stored under the next sub-key) followed by run.Flush, and then
reading run.Log() to EOF (blocks fetched in key order and
decompressed), yields exactly the concatenation of the written bytes in
write order, under the gzip round-trip contract for the codec. -/
theorem log_write_read_roundtrip (deflate : GoBytes → GoBytes)
    (inflate : GoBytes → Option GoBytes) (hrt : ∀ q, inflate (deflate q) = some q)
    (d : DBState) (r : RunRec) (rd : RunData)
    (hrd : lookupRun d r.study r.seq = some rd) (h0 : rd.logs = [])
    (ws : List GoBytes) :
    ∃ d1 b1 d2, runWrites deflate d r [] ws = .ok (d1, b1) ∧
      runFlush deflate d1 r b1 = .ok (d2, []) ∧
      runLog inflate d2 r = some ws.flatten := by
  obtain ⟨d1, b1, bs, hw, hl1, hc1⟩ := runWrites_ok deflate d r [] ws rd hrd
  obtain ⟨d2, bs2, hf, hl2, hc2⟩ := runFlush_ok deflate d1 r b1 _ hl1
  refine ⟨d1, b1, d2, hw, hf, ?_⟩
  unfold runLog
  simp only [hl2, h0, List.nil_append, ← List.map_append]
  rw [readLog_deflate deflate inflate hrt (bs ++ bs2)]
  have hws : (bs ++ bs2).flatten = ws.flatten := by
    rw [List.flatten_append, hc2]
    simpa using hc1
  rw [hws]

/-- C5 witness: with the identity codec (which satisfies the round-trip
contract) two writes and a flush on a fresh run read back as their
concatenation. -/
theorem log_write_read_roundtrip_witness :
    ∃ d1 b1 d2, runWrites (fun q => q) (dbWith rPend false) rPend [] [[0, 1], [2]] =
        .ok (d1, b1) ∧
      runFlush (fun q => q) d1 rPend b1 = .ok (d2, []) ∧
      runLog (fun q => some q) d2 rPend = some [0, 1, 2] :=
  log_write_read_roundtrip (fun q => q) (fun q => some q) (fun _ => rfl)
    (dbWith rPend false) rPend (rdOf rPend) rfl rfl [[0, 1], [2]]
